import Mathlib

/-!
Shallow embedding of the core of warplan (`src/main.c`): the dice engine,
the combat resolver (`SingleAttack`, `AttackTerritory`, `SimAttack`), the
outcome predictor (`PredictAttack`) and the allocation planner
(`InitCombinations`, `NextCombination`, `PlanWar`).

Modelling conventions:
* The process-wide random stream (`rand()`) is modelled as a function
  `s : Nat → Nat` giving the i-th raw value drawn, together with a cursor
  (the next position to read).  The rejection loop in `UniformDiceRoll`
  is modelled with explicit fuel (it does not terminate on a stream whose
  values are all rejected), returning `Option`.
* The combat layer (`SingleAttack` and above) consumes dice *values*; it is
  parametrised by a stream `d : Nat → Nat` of die values, abstracting the
  sequence of values produced by `UniformDiceRoll`.  All combat claims hold
  for arbitrary value streams, so no range assumption on `d` is made.
* All unit counts are C `unsigned int`.  Overflowing arithmetic is
  modelled modulo 2^32: the subtractions by `usub`, and the statistics
  accumulators of `PredictAttack` — whose running sums can wrap in
  ordinary completing runs — by `uadd`.  The win/loss counters increment
  by one per iteration and stay below 2^32 for every iteration count in
  the C `unsigned int` domain, so they are plain `Nat`; the front-unit
  addition `units_on_front + bonus_units` is plain `Nat` addition, and
  every claim that depends on it carries the `< 2^32` domain side
  conditions under which it coincides with the unsigned addition.
* C `float` quantities produced by a division are modelled as `Option ℚ`:
  `none` models the NaN produced when the denominator is zero (at every
  such site in the source the numerator is zero too, so the result is the
  NaN `0.0f/0.0f`), `some q` the exact quotient; float rounding is not
  modelled.  A comparison `x >= y` on floats is false when `x` is NaN,
  which the model mirrors explicitly.
* `qsort` is modelled by `List.insertionSort` with the order induced by the
  corresponding comparator (`CompareDice`, `ComparePlan`).  `qsort` is
  unstable, so the order of equal elements is unspecified in C; none of the
  verified properties depends on the tie order.
-/

namespace WarPlan

/-- Source constant `MIN_TERRITORY_UNITS` (src/main.c:70). -/
def MIN_TERRITORY_UNITS : Nat := 1

/-- Source constant `MAX_ATTACK_DICE_COUNT` (src/main.c:72). -/
def MAX_ATTACK_DICE_COUNT : Nat := 3

/-- Source constant `MAX_DEFEND_DICE_COUNT` (src/main.c:73). -/
def MAX_DEFEND_DICE_COUNT : Nat := 2

/-- Source constant `DICE_SIDES` (src/main.c:75). -/
def DICE_SIDES : Nat := 6

/-- C `UINT_MAX` on the target platform (32-bit `unsigned int`). -/
def UINT_MAX : Nat := 4294967295

/-- Source constant `MAX_DICE_RAND_VALUE = (UINT_MAX/DICE_SIDES)*DICE_SIDES`
(src/main.c:76): the largest multiple of 6 not exceeding `UINT_MAX`. -/
def MAX_DICE_RAND_VALUE : Nat := (UINT_MAX / DICE_SIDES) * DICE_SIDES

/-- Modulus of C `unsigned int` arithmetic, `2^32`. -/
def U32 : Nat := 4294967296

/-- C `unsigned int` subtraction `a - b` (wraps around modulo `2^32`).
Faithful for `a, b < U32`, which holds at every use site. -/
def usub (a b : Nat) : Nat := (U32 + a - b) % U32

/-- C `unsigned int` addition `a + b` (wraps around modulo `2^32`).
Faithful for `a, b < U32`, which holds at every use site. -/
def uadd (a b : Nat) : Nat := (a + b) % U32

/-- The face a raw random value is mapped to: `(rand_value % DICE_SIDES) + 1`
(src/main.c:300). -/
def faceOf (v : Nat) : Nat := v % DICE_SIDES + 1

/-- `UniformDiceRoll` (src/main.c:289-303) on the raw random stream `s`
starting at position `pos`: draw, reject and redraw while the raw value is
`>= MAX_DICE_RAND_VALUE`, then map the accepted value to a face.  `fuel`
bounds the number of draws; `none` models non-termination of the rejection
loop within the fuel.  Returns the face and the new stream position. -/
def uniformDiceRoll (s : Nat → Nat) : Nat → Nat → Option (Nat × Nat)
  | _, 0 => none
  | pos, fuel + 1 =>
      if s pos < MAX_DICE_RAND_VALUE then some (faceOf (s pos), pos + 1)
      else uniformDiceRoll s (pos + 1) fuel

/-- The unsorted dice-filling loop of `RollDice` (src/main.c:308-309):
draw `count` faces in sequence from the raw stream. -/
def rollDiceRaw (s : Nat → Nat) (fuel : Nat) : Nat → Nat → Option (List Nat × Nat)
  | pos, 0 => some ([], pos)
  | pos, n + 1 =>
      match uniformDiceRoll s pos fuel with
      | none => none
      | some (v, pos₁) =>
          match rollDiceRaw s fuel pos₁ n with
          | none => none
          | some (vs, pos₂) => some (v :: vs, pos₂)

/-- Sorting dice into descending order: `qsort` with `CompareDice`
(src/main.c:257-270, 311), modelled by insertion sort for the relation
`b ≤ a` (non-increasing). -/
def sortDesc (l : List Nat) : List Nat := l.insertionSort (fun a b => b ≤ a)

/-- `RollDice` (src/main.c:305-312): draw `count` faces from the raw random
stream and sort them descending. -/
def rollDice (s : Nat → Nat) (fuel pos count : Nat) : Option (List Nat × Nat) :=
  (rollDiceRaw s fuel pos count).map (fun r => (sortDesc r.1, r.2))

/-- `RollDice` at the level of the die-value stream `d` used by the combat
layer: take `count` values starting at `pos` and sort them descending.
This abstracts `rollDice` above: the value stream is the sequence of faces
`UniformDiceRoll` produces. -/
def takeDice (d : Nat → Nat) (pos count : Nat) : List Nat :=
  sortDesc ((List.range count).map (fun i => d (pos + i)))

/-- The dice-comparison loop of `SingleAttack` (src/main.c:345-351): over
positions `0..n-1`, the defender loses a unit where the attacker's die is
strictly greater, otherwise the attacker loses one.  Returns
`(lost_attack_units, lost_defend_units)`. -/
def compareLosses (attack defend : List Nat) : Nat → Nat × Nat
  | 0 => (0, 0)
  | n + 1 =>
      let p := compareLosses attack defend n
      if defend.getD n 0 < attack.getD n 0 then (p.1, p.2 + 1) else (p.1 + 1, p.2)

/-- `SingleAttack` (src/main.c:314-374): one combat round.  Takes the die
value stream `d`, the stream position, the attacker's front units and the
territory's defending units; returns
`(remaining_units_on_front, remaining_territory_units, new position)`. -/
def singleAttack (d : Nat → Nat) (pos front territory : Nat) : Nat × Nat × Nat :=
  let attackUnitCount := usub front MIN_TERRITORY_UNITS
  let attackDiceCount := min attackUnitCount MAX_ATTACK_DICE_COUNT
  let defendDiceCount := min territory MAX_DEFEND_DICE_COUNT
  let attackDice := takeDice d pos attackDiceCount
  let defendDice := takeDice d (pos + attackDiceCount) defendDiceCount
  let compareDiceCount := min attackDiceCount defendDiceCount
  let losses := compareLosses attackDice defendDice compareDiceCount
  (usub front losses.1, usub territory losses.2, pos + attackDiceCount + defendDiceCount)

theorem compareLosses_sum (attack defend : List Nat) (n : Nat) :
    (compareLosses attack defend n).1 + (compareLosses attack defend n).2 = n := by
  induction n with
  | zero => rfl
  | succ n ih =>
      simp only [compareLosses]
      split <;> omega

theorem usub_add_usub_lt (f t la ld cc : Nat) (hf : 1 < f) (ht : 0 < t)
    (hcc : cc = min (min (usub f MIN_TERRITORY_UNITS) MAX_ATTACK_DICE_COUNT)
      (min t MAX_DEFEND_DICE_COUNT))
    (hsum : la + ld = cc) :
    usub f la + usub t ld < f + t := by
  simp only [usub, U32, MIN_TERRITORY_UNITS, MAX_ATTACK_DICE_COUNT,
    MAX_DEFEND_DICE_COUNT] at *
  omega

theorem singleAttack_lt (d : Nat → Nat) (pos f t : Nat) (hf : 1 < f) (ht : 0 < t) :
    (singleAttack d pos f t).1 + (singleAttack d pos f t).2.1 < f + t := by
  simp only [singleAttack]
  exact usub_add_usub_lt f t _ _ _ hf ht rfl (compareLosses_sum _ _ _)

/-- `AttackTerritory` (src/main.c:376-402): repeat `SingleAttack` while the
attacker has more than `MIN_TERRITORY_UNITS` front units and the territory
still has defenders.  Totality of this definition is the termination of the
source loop: each round strictly decreases `front + territory`
(`singleAttack_lt`). -/
def attackTerritory (d : Nat → Nat) (pos front territory : Nat) : Nat × Nat × Nat :=
  if h : MIN_TERRITORY_UNITS < front ∧ 0 < territory then
    attackTerritory d (singleAttack d pos front territory).2.2
      (singleAttack d pos front territory).1 (singleAttack d pos front territory).2.1
  else (front, territory, pos)
termination_by front + territory
decreasing_by exact singleAttack_lt d pos front territory h.1 h.2

theorem attackTerritory_stop (d : Nat → Nat) (pos front territory : Nat)
    (h : ¬(MIN_TERRITORY_UNITS < front ∧ 0 < territory)) :
    attackTerritory d pos front territory = (front, territory, pos) := by
  rw [attackTerritory]
  exact dif_neg h

theorem attackTerritory_step (d : Nat → Nat) (pos front territory : Nat)
    (h : MIN_TERRITORY_UNITS < front ∧ 0 < territory) :
    attackTerritory d pos front territory =
      attackTerritory d (singleAttack d pos front territory).2.2
        (singleAttack d pos front territory).1
        (singleAttack d pos front territory).2.1 := by
  rw [attackTerritory]
  exact dif_pos h

theorem usub_eq_sub (a b : Nat) (h1 : b ≤ a) (h2 : a < U32) : usub a b = a - b := by
  simp only [usub, U32] at *
  omega

theorem takeDice_length (d : Nat → Nat) (pos n : Nat) : (takeDice d pos n).length = n := by
  simp [takeDice, sortDesc, List.length_insertionSort]

theorem compareLosses_eq (attack defend : List Nat) (n : Nat) :
    compareLosses attack defend n =
      (((List.range n).filter (fun i => attack.getD i 0 ≤ defend.getD i 0)).length,
       ((List.range n).filter (fun i => defend.getD i 0 < attack.getD i 0)).length) := by
  induction n with
  | zero => rfl
  | succ n ih =>
      simp only [compareLosses, ih, List.range_succ, List.filter_append,
        List.length_append]
      by_cases h : defend.getD n 0 < attack.getD n 0
      · have h2 : ¬ attack.getD n 0 ≤ defend.getD n 0 := by omega
        simp only [List.getD_eq_getElem?_getD] at h h2
        simp [List.filter_singleton, h, h2]
      · have h2 : attack.getD n 0 ≤ defend.getD n 0 := by omega
        simp only [List.getD_eq_getElem?_getD] at h h2
        simp [List.filter_singleton, h, h2]

/-- Arithmetic core of the per-round front invariant: the attacker loses at
most `min (front-1) 3` units in one round, so at least one unit survives. -/
theorem usub_front_facts (f t la ld cc : Nat) (hf : 1 < f) (hfU : f < U32)
    (hcc : cc = min (min (usub f MIN_TERRITORY_UNITS) MAX_ATTACK_DICE_COUNT)
      (min t MAX_DEFEND_DICE_COUNT))
    (hsum : la + ld = cc) :
    1 ≤ usub f la ∧ usub f la ≤ f ∧ usub f la < U32 := by
  simp only [usub, U32, MIN_TERRITORY_UNITS, MAX_ATTACK_DICE_COUNT,
    MAX_DEFEND_DICE_COUNT] at *
  omega

/-- Arithmetic core of the conquest invariant: when a round brings the
defenders to zero, the defender lost at least one die comparison, so the
attacker lost at most `compare_dice_count - 1 ≤ front - 2` units and at
least two front units survive. -/
theorem usub_conquer_facts (f t la ld cc : Nat) (hf : 1 < f) (hfU : f < U32)
    (ht : 1 ≤ t) (htU : t < U32)
    (hcc : cc = min (min (usub f MIN_TERRITORY_UNITS) MAX_ATTACK_DICE_COUNT)
      (min t MAX_DEFEND_DICE_COUNT))
    (hsum : la + ld = cc) :
    usub t ld ≤ t ∧ usub t ld < U32 ∧ (usub t ld = 0 → 2 ≤ usub f la) := by
  simp only [usub, U32, MIN_TERRITORY_UNITS, MAX_ATTACK_DICE_COUNT,
    MAX_DEFEND_DICE_COUNT] at *
  omega

theorem singleAttack_front_facts (d : Nat → Nat) (pos f t : Nat)
    (hf : 1 < f) (hfU : f < U32) :
    1 ≤ (singleAttack d pos f t).1 ∧ (singleAttack d pos f t).1 ≤ f ∧
      (singleAttack d pos f t).1 < U32 := by
  simp only [singleAttack]
  exact usub_front_facts f t _ _ _ hf hfU rfl (compareLosses_sum _ _ _)

theorem singleAttack_conquer_facts (d : Nat → Nat) (pos f t : Nat)
    (hf : 1 < f) (hfU : f < U32) (ht : 1 ≤ t) (htU : t < U32) :
    (singleAttack d pos f t).2.1 ≤ t ∧ (singleAttack d pos f t).2.1 < U32 ∧
      ((singleAttack d pos f t).2.1 = 0 → 2 ≤ (singleAttack d pos f t).1) := by
  simp only [singleAttack]
  exact usub_conquer_facts f t _ _ _ hf hfU ht htU rfl (compareLosses_sum _ _ _)

/-- Loop invariant of `AttackTerritory`: front units stay in `[1, U32)` and
on exit one of the two floors is reached. -/
theorem attackTerritory_inv :
    ∀ (n : Nat) (d : Nat → Nat) (pos f t : Nat), f + t ≤ n → 1 ≤ f → f < U32 →
      1 ≤ (attackTerritory d pos f t).1 ∧ (attackTerritory d pos f t).1 < U32 ∧
        ((attackTerritory d pos f t).1 = 1 ∨ (attackTerritory d pos f t).2.1 = 0) := by
  intro n
  induction n with
  | zero => intro d pos f t hn hf hfU; exact absurd hf (by omega)
  | succ n ih =>
      intro d pos f t hn hf hfU
      by_cases h : MIN_TERRITORY_UNITS < f ∧ 0 < t
      · rw [attackTerritory_step d pos f t h]
        have hlt := singleAttack_lt d pos f t h.1 h.2
        have hff := singleAttack_front_facts d pos f t h.1 hfU
        exact ih d _ _ _ (by omega) hff.1 hff.2.2
      · rw [attackTerritory_stop d pos f t h]
        simp only [MIN_TERRITORY_UNITS] at h
        refine ⟨hf, hfU, ?_⟩
        show f = 1 ∨ t = 0
        rcases not_and_or.mp h with h1 | h1 <;> omega

/-- Conquest invariant of `AttackTerritory`: if it starts against at least
one defender and ends with the territory conquered, at least two front
units survive. -/
theorem attackTerritory_conquer :
    ∀ (n : Nat) (d : Nat → Nat) (pos f t : Nat), f + t ≤ n → 1 ≤ f → f < U32 →
      1 ≤ t → t < U32 → (attackTerritory d pos f t).2.1 = 0 →
      2 ≤ (attackTerritory d pos f t).1 := by
  intro n
  induction n with
  | zero => intro d pos f t hn hf hfU ht htU h0; exact absurd hf (by omega)
  | succ n ih =>
      intro d pos f t hn hf hfU ht htU h0
      by_cases h : MIN_TERRITORY_UNITS < f ∧ 0 < t
      · rw [attackTerritory_step d pos f t h] at h0 ⊢
        have hlt := singleAttack_lt d pos f t h.1 h.2
        have hff := singleAttack_front_facts d pos f t h.1 hfU
        have hcf := singleAttack_conquer_facts d pos f t h.1 hfU ht htU
        by_cases ht2 : (singleAttack d pos f t).2.1 = 0
        · rw [attackTerritory_stop _ _ _ _ (by simp [ht2])] at h0 ⊢
          exact hcf.2.2 ht2
        · exact ih d _ _ _ (by omega) hff.1 hff.2.2 (by omega) hcf.2.1 h0
      · rw [attackTerritory_stop d pos f t h] at h0
        simp only [MIN_TERRITORY_UNITS] at h
        have h0' : t = 0 := h0
        omega

theorem singleAttack_eq (d : Nat → Nat) (pos f t : Nat) :
    singleAttack d pos f t =
      (usub f (compareLosses
          (takeDice d pos (min (usub f MIN_TERRITORY_UNITS) MAX_ATTACK_DICE_COUNT))
          (takeDice d (pos + min (usub f MIN_TERRITORY_UNITS) MAX_ATTACK_DICE_COUNT)
            (min t MAX_DEFEND_DICE_COUNT))
          (min (min (usub f MIN_TERRITORY_UNITS) MAX_ATTACK_DICE_COUNT)
            (min t MAX_DEFEND_DICE_COUNT))).1,
       usub t (compareLosses
          (takeDice d pos (min (usub f MIN_TERRITORY_UNITS) MAX_ATTACK_DICE_COUNT))
          (takeDice d (pos + min (usub f MIN_TERRITORY_UNITS) MAX_ATTACK_DICE_COUNT)
            (min t MAX_DEFEND_DICE_COUNT))
          (min (min (usub f MIN_TERRITORY_UNITS) MAX_ATTACK_DICE_COUNT)
            (min t MAX_DEFEND_DICE_COUNT))).2,
       pos + min (usub f MIN_TERRITORY_UNITS) MAX_ATTACK_DICE_COUNT
         + min t MAX_DEFEND_DICE_COUNT) := rfl

/-- C3: one combat round (`SingleAttack` / `resolveRound`) with
`attackerUnits ≥ 2` and `defenderUnits ≥ 1` rolls `min(attackerUnits-1, 3)`
attacker dice and `min(defenderUnits, 2)` defender dice, compares exactly
`min` of the two counts of leading positions of the descending-sorted rolls,
loses the defender one unit exactly at positions where the attacker's die is
strictly greater and the attacker one unit at every other compared position
(ties favor the defender), so the two losses sum to the compared-position
count.  The bounds `f < U32`, `t < U32` are the C `unsigned int` domain. -/
theorem resolveRound_spec (d : Nat → Nat) (pos f t : Nat)
    (hf : 2 ≤ f) (hfU : f < U32) (ht : 1 ≤ t) (htU : t < U32) :
    (takeDice d pos (min (f - 1) MAX_ATTACK_DICE_COUNT)).length =
        min (f - 1) MAX_ATTACK_DICE_COUNT ∧
    (takeDice d (pos + min (f - 1) MAX_ATTACK_DICE_COUNT)
        (min t MAX_DEFEND_DICE_COUNT)).length = min t MAX_DEFEND_DICE_COUNT ∧
    (singleAttack d pos f t).1 ≤ f ∧ (singleAttack d pos f t).2.1 ≤ t ∧
    t - (singleAttack d pos f t).2.1 =
      ((List.range (min (min (f - 1) MAX_ATTACK_DICE_COUNT) (min t MAX_DEFEND_DICE_COUNT))).filter
        (fun i =>
          (takeDice d (pos + min (f - 1) MAX_ATTACK_DICE_COUNT) (min t MAX_DEFEND_DICE_COUNT)).getD i 0 <
          (takeDice d pos (min (f - 1) MAX_ATTACK_DICE_COUNT)).getD i 0)).length ∧
    f - (singleAttack d pos f t).1 =
      ((List.range (min (min (f - 1) MAX_ATTACK_DICE_COUNT) (min t MAX_DEFEND_DICE_COUNT))).filter
        (fun i =>
          (takeDice d pos (min (f - 1) MAX_ATTACK_DICE_COUNT)).getD i 0 ≤
          (takeDice d (pos + min (f - 1) MAX_ATTACK_DICE_COUNT) (min t MAX_DEFEND_DICE_COUNT)).getD i 0)).length ∧
    (f - (singleAttack d pos f t).1) + (t - (singleAttack d pos f t).2.1) =
      min (min (f - 1) MAX_ATTACK_DICE_COUNT) (min t MAX_DEFEND_DICE_COUNT) := by
  have hAC : usub f MIN_TERRITORY_UNITS = f - 1 := by
    simp only [MIN_TERRITORY_UNITS]
    exact usub_eq_sub f 1 (by omega) hfU
  rw [singleAttack_eq, hAC]
  set A := takeDice d pos (min (f - 1) MAX_ATTACK_DICE_COUNT) with hA
  set D := takeDice d (pos + min (f - 1) MAX_ATTACK_DICE_COUNT)
    (min t MAX_DEFEND_DICE_COUNT) with hD
  rcases hcl : compareLosses A D
      (min (min (f - 1) MAX_ATTACK_DICE_COUNT) (min t MAX_DEFEND_DICE_COUNT))
    with ⟨la, ld⟩
  have hs := compareLosses_sum A D
    (min (min (f - 1) MAX_ATTACK_DICE_COUNT) (min t MAX_DEFEND_DICE_COUNT))
  have hc := compareLosses_eq A D
    (min (min (f - 1) MAX_ATTACK_DICE_COUNT) (min t MAX_DEFEND_DICE_COUNT))
  rw [hcl] at hs hc
  injection hc with hc1 hc2
  have hlaf : la ≤ f - 1 := by
    simp only [MAX_ATTACK_DICE_COUNT, MAX_DEFEND_DICE_COUNT] at hs
    omega
  have hldt : ld ≤ t := by
    simp only [MAX_ATTACK_DICE_COUNT, MAX_DEFEND_DICE_COUNT] at hs
    omega
  rw [usub_eq_sub f la (by omega) hfU, usub_eq_sub t ld hldt htU]
  dsimp only
  refine ⟨takeDice_length d pos _, takeDice_length d _ _, by omega, by omega,
    ?_, ?_, by omega⟩
  · rw [show t - (t - ld) = ld by omega]
    exact hc2
  · rw [show f - (f - la) = la by omega]
    exact hc1

/-- C4: `AttackTerritory` (`resolveTerritory`) terminates — which is the
totality of the definition `attackTerritory` — and, for every starting
front count in `[1, U32)` (the C `unsigned int` domain of an actual call)
and every defender count, its result has `remaining front = 1` or
`remaining territory = 0`: one of the two floors is reached, and by
definition the loop body never runs once either side is at its floor. -/
theorem resolveTerritory_reaches_floor (d : Nat → Nat) (pos f t : Nat)
    (hf : 1 ≤ f) (hfU : f < U32) :
    (attackTerritory d pos f t).1 = 1 ∨ (attackTerritory d pos f t).2.1 = 0 :=
  (attackTerritory_inv (f + t) d pos f t (le_refl _) hf hfU).2.2

/-- Constant die-value stream used to instantiate universally quantified
theorems at a concrete input. -/
def d0 : Nat → Nat := fun _ => 0

theorem resolveTerritory_reaches_floor_w :
    1 ≤ 2 ∧ (2 : Nat) < U32 ∧
      ((attackTerritory d0 0 2 1).1 = 1 ∨ (attackTerritory d0 0 2 1).2.1 = 0) :=
  ⟨by decide, by decide, resolveTerritory_reaches_floor d0 0 2 1 (by decide) (by decide)⟩

theorem resolveRound_spec_w :
    2 ≤ 2 ∧ (2 : Nat) < U32 ∧ 1 ≤ 1 ∧ (1 : Nat) < U32 ∧
      ((takeDice d0 0 (min (2 - 1) MAX_ATTACK_DICE_COUNT)).length =
          min (2 - 1) MAX_ATTACK_DICE_COUNT ∧
        (takeDice d0 (0 + min (2 - 1) MAX_ATTACK_DICE_COUNT)
            (min 1 MAX_DEFEND_DICE_COUNT)).length = min 1 MAX_DEFEND_DICE_COUNT ∧
        (singleAttack d0 0 2 1).1 ≤ 2 ∧ (singleAttack d0 0 2 1).2.1 ≤ 1 ∧
        1 - (singleAttack d0 0 2 1).2.1 =
          ((List.range (min (min (2 - 1) MAX_ATTACK_DICE_COUNT) (min 1 MAX_DEFEND_DICE_COUNT))).filter
            (fun i =>
              (takeDice d0 (0 + min (2 - 1) MAX_ATTACK_DICE_COUNT) (min 1 MAX_DEFEND_DICE_COUNT)).getD i 0 <
              (takeDice d0 0 (min (2 - 1) MAX_ATTACK_DICE_COUNT)).getD i 0)).length ∧
        2 - (singleAttack d0 0 2 1).1 =
          ((List.range (min (min (2 - 1) MAX_ATTACK_DICE_COUNT) (min 1 MAX_DEFEND_DICE_COUNT))).filter
            (fun i =>
              (takeDice d0 0 (min (2 - 1) MAX_ATTACK_DICE_COUNT)).getD i 0 ≤
              (takeDice d0 (0 + min (2 - 1) MAX_ATTACK_DICE_COUNT) (min 1 MAX_DEFEND_DICE_COUNT)).getD i 0)).length ∧
        (2 - (singleAttack d0 0 2 1).1) + (1 - (singleAttack d0 0 2 1).2.1) =
          min (min (2 - 1) MAX_ATTACK_DICE_COUNT) (min 1 MAX_DEFEND_DICE_COUNT)) :=
  ⟨by decide, by decide, by decide, by decide,
    resolveRound_spec d0 0 2 1 (by decide) (by decide) (by decide) (by decide)⟩

/-- Source `struct territory_def` (src/main.c:81-84). -/
structure TerritoryDef where
  units : Nat
deriving DecidableEq

/-- Source `struct attack_vector_def` (src/main.c:86-94); the display label
`def_string` is omitted (it carries no information used by the core) and the
fixed-size array plus `territory_count` are modelled as a list. -/
structure AttackVectorDef where
  unitsOnFront : Nat
  territoryVector : List TerritoryDef
deriving DecidableEq

/-- Source `struct attack_result` (src/main.c:96-101). -/
structure AttackResult where
  conqueredTerritoryCount : Nat
  unitsOnFront : Nat
  enemyUnitsOnFront : Nat
deriving DecidableEq

/-- The territory loop of `SimAttack` (src/main.c:420-456): assault the
territories in order; on a conquest, leave a one-unit garrison
(`usub … MIN_TERRITORY_UNITS`, an unsigned subtraction) and advance; on a
failure stop immediately.  Returns the `attack_result` and the stream
position.  In the source, `remaining_territory_units` is read uninitialized
when the territory list is empty (which `ParseAttackVector` rules out); the
model returns 0 in that case, which also matches the fully-conquered exit. -/
def simAttackLoop (d : Nat → Nat) : Nat → Nat → List TerritoryDef → AttackResult × Nat
  | pos, front, [] => (⟨0, front, 0⟩, pos)
  | pos, front, td :: rest =>
      let a := attackTerritory d pos front td.units
      if a.2.1 = 0 then
        let r := simAttackLoop d a.2.2 (usub a.1 MIN_TERRITORY_UNITS) rest
        (⟨r.1.conqueredTerritoryCount + 1, r.1.unitsOnFront, r.1.enemyUnitsOnFront⟩, r.2)
      else (⟨0, a.1, a.2.1⟩, a.2.2)

/-- `SimAttack` (src/main.c:404-461): simulate one traversal of an attack
vector with `units_on_front + bonus_units` starting front units. -/
def simAttack (d : Nat → Nat) (pos : Nat) (av : AttackVectorDef) (bonus : Nat) :
    AttackResult × Nat :=
  simAttackLoop d pos (av.unitsOnFront + bonus) av.territoryVector

/-- Observer of the `units_on_front` variable of `SimAttack`'s loop: the
front count carried into each attacked territory, in order.  It follows the
loop of `simAttackLoop` exactly and is used to state the carried-front
safety claim. -/
def carriedFronts (d : Nat → Nat) : Nat → Nat → List TerritoryDef → List Nat
  | _, _, [] => []
  | pos, front, td :: rest =>
      let a := attackTerritory d pos front td.units
      front :: (if a.2.1 = 0 then carriedFronts d a.2.2 (usub a.1 MIN_TERRITORY_UNITS) rest
                else [])

/-- C8: for the one-territory vector with 0 defenders and 5 front units,
`SimAttack` with bonus 0 returns conquered count 1, remaining front 4 and
remaining enemy units 0 for every die-value stream, and consumes no dice
(the returned stream position equals the starting one): no combat round is
executed. -/
theorem resolveVector_trivial (d : Nat → Nat) (pos : Nat) :
    simAttack d pos ⟨5, [⟨0⟩]⟩ 0 = (⟨1, 4, 0⟩, pos) := by
  have h1 : attackTerritory d pos 5 0 = (5, 0, pos) :=
    attackTerritory_stop _ _ _ _ (by simp)
  simp only [simAttack, simAttackLoop, h1, if_true]
  simp only [usub, U32, MIN_TERRITORY_UNITS]

/-- Loop invariant behind the amended C10: if every territory has at least
one defender (and counts are in the `unsigned int` range), the front count
carried into every territory stays in `[1, U32)` — the garrison subtraction
never wraps — and so does the reported remaining front. -/
theorem simAttackLoop_front_inv :
    ∀ (ts : List TerritoryDef) (d : Nat → Nat) (pos front : Nat),
      1 ≤ front → front < U32 → (∀ td ∈ ts, 1 ≤ td.units ∧ td.units < U32) →
      (∀ g ∈ carriedFronts d pos front ts, 1 ≤ g ∧ g < U32) ∧
        1 ≤ (simAttackLoop d pos front ts).1.unitsOnFront ∧
        (simAttackLoop d pos front ts).1.unitsOnFront < U32 := by
  intro ts
  induction ts with
  | nil =>
      intro d pos front hf hfU hts
      simp only [carriedFronts, simAttackLoop, List.not_mem_nil, false_implies, implies_true]
      exact ⟨trivial, hf, hfU⟩
  | cons td rest ih =>
      intro d pos front hf hfU hts
      have htd := hts td (List.mem_cons_self td rest)
      have hinv := attackTerritory_inv (front + td.units) d pos front td.units
        (le_refl _) hf hfU
      simp only [carriedFronts, simAttackLoop]
      by_cases hc : (attackTerritory d pos front td.units).2.1 = 0
      · have hcq := attackTerritory_conquer (front + td.units) d pos front td.units
          (le_refl _) hf hfU htd.1 htd.2 hc
        have hsub : usub (attackTerritory d pos front td.units).1 MIN_TERRITORY_UNITS =
            (attackTerritory d pos front td.units).1 - 1 := by
          simp only [MIN_TERRITORY_UNITS]
          exact usub_eq_sub _ 1 (by omega) hinv.2.1
        have hrec := ih d (attackTerritory d pos front td.units).2.2
          (usub (attackTerritory d pos front td.units).1 MIN_TERRITORY_UNITS)
          (by omega) (by omega) (fun x hx => hts x (List.mem_cons_of_mem td hx))
        simp only [if_pos hc]
        refine ⟨?_, hrec.2.1, hrec.2.2⟩
        intro g hg
        rcases List.mem_cons.mp hg with hg | hg
        · exact hg ▸ ⟨hf, hfU⟩
        · exact hrec.1 g hg
      · simp only [if_neg hc]
        refine ⟨?_, hinv.1, hinv.2.1⟩
        intro g hg
        rcases List.mem_cons.mp hg with hg | hg
        · exact hg ▸ ⟨hf, hfU⟩
        · simp at hg

/-- C10 (amended): for every attack vector whose starting front count
(base plus bonus) is in `[1, U32)` and whose territories each hold at least
one defender, the front carried into each territory is at least 1 and below
`2^32`, so the garrison subtraction never wraps and the reported remaining
front units are never a wraparound artifact.  -/
theorem resolveVector_front_no_wrap (d : Nat → Nat) (pos : Nat)
    (av : AttackVectorDef) (bonus : Nat)
    (h1 : 1 ≤ av.unitsOnFront + bonus) (h2 : av.unitsOnFront + bonus < U32)
    (h3 : ∀ td ∈ av.territoryVector, 1 ≤ td.units ∧ td.units < U32) :
    (∀ g ∈ carriedFronts d pos (av.unitsOnFront + bonus) av.territoryVector,
        1 ≤ g ∧ g < U32) ∧
      1 ≤ (simAttack d pos av bonus).1.unitsOnFront ∧
      (simAttack d pos av bonus).1.unitsOnFront < U32 :=
  simAttackLoop_front_inv av.territoryVector d pos (av.unitsOnFront + bonus) h1 h2 h3

theorem resolveVector_front_no_wrap_w :
    1 ≤ 1 + 0 ∧ 1 + 0 < U32 ∧
      (∀ td ∈ ({ unitsOnFront := 1, territoryVector := [⟨5⟩] } : AttackVectorDef).territoryVector,
        1 ≤ td.units ∧ td.units < U32) ∧
      ((∀ g ∈ carriedFronts d0 0
          (({ unitsOnFront := 1, territoryVector := [⟨5⟩] } : AttackVectorDef).unitsOnFront + 0)
          ({ unitsOnFront := 1, territoryVector := [⟨5⟩] } : AttackVectorDef).territoryVector,
          1 ≤ g ∧ g < U32) ∧
        1 ≤ (simAttack d0 0 { unitsOnFront := 1, territoryVector := [⟨5⟩] } 0).1.unitsOnFront ∧
        (simAttack d0 0 { unitsOnFront := 1, territoryVector := [⟨5⟩] } 0).1.unitsOnFront < U32) :=
  ⟨by decide, by decide, by decide,
    resolveVector_front_no_wrap d0 0 { unitsOnFront := 1, territoryVector := [⟨5⟩] } 0
      (by decide) (by decide) (by decide)⟩

/-- C10 counterexample: for the attack vector `1:0,0` (front 1, two
territories with 0 defenders) — admissible under the claim's hypotheses —
the front carried into the second territory is 0, not at least 1, and the
reported remaining front units are `2^32 - 1 = 4294967295`: the unsigned
garrison subtraction `0 - 1` wraps around. -/
theorem resolveVector_front_wraps_cx :
    carriedFronts d0 0 1 [⟨0⟩, ⟨0⟩] = [1, 0] ∧
    ¬ (∀ g ∈ carriedFronts d0 0 1 [⟨0⟩, ⟨0⟩], 1 ≤ g) ∧
    (simAttack d0 0 ⟨1, [⟨0⟩, ⟨0⟩]⟩ 0).1.unitsOnFront = 4294967295 := by
  have h1 : attackTerritory d0 0 1 0 = (1, 0, 0) :=
    attackTerritory_stop _ _ _ _ (by simp)
  have h2 : attackTerritory d0 0 0 0 = (0, 0, 0) :=
    attackTerritory_stop _ _ _ _ (by simp)
  have hcf : carriedFronts d0 0 1 [⟨0⟩, ⟨0⟩] = [1, 0] := by
    simp only [carriedFronts, h1, h2, usub, U32, MIN_TERRITORY_UNITS, if_true]
  refine ⟨hcf, ?_, ?_⟩
  · rw [hcf]
    decide
  · simp only [simAttack, simAttackLoop, h1, h2, usub, U32, MIN_TERRITORY_UNITS, if_true]

/-- C `float` division `(float)a / (float)b` of two unsigned counters
(src/main.c:525-528): `none` models the NaN produced when the denominator
is zero (the numerator is zero at every such site), otherwise the exact
quotient. -/
def fdiv (a b : Nat) : Option ℚ := if b = 0 then none else some ((a : ℚ) / (b : ℚ))

/-- Source `struct attack_prediction` (src/main.c:103-112). -/
structure AttackPrediction where
  winLikelihood : Option ℚ
  estimatedRemainingUnitsIfWin : Option ℚ
  estimatedRemainingEnemiesIfLoss : Option ℚ
  estimatedRemainingTerritoriesIfLoss : Option ℚ
  winCount : Nat
  lossCount : Nat
deriving DecidableEq

/-- The accumulator variables of `PredictAttack` (src/main.c:471-481). -/
structure PredTotals where
  winCount : Nat
  totalUnitsOnFront : Nat
  lossCount : Nat
  totalEnemyUnits : Nat
  totalTerritories : Nat
deriving DecidableEq

/-- The per-loss enemy-unit loop of `PredictAttack` (src/main.c:502-517):
start from the stopping territory's remaining defenders and add, in
`unsigned int` arithmetic (`+=` wraps), the original defender counts of
every territory strictly after the stopping one. -/
def lossEnemyUnits (av : AttackVectorDef) (r : AttackResult) : Nat :=
  (av.territoryVector.drop (r.conqueredTerritoryCount + 1)).foldl
    (fun acc td => uadd acc td.units) r.enemyUnitsOnFront

/-- The simulation loop of `PredictAttack` (src/main.c:483-523): run
`SimAttack` `iters` times; a run with zero remaining enemy units is a win
(accumulate remaining front units), otherwise a loss (accumulate
`lossEnemyUnits` and the count of unconquered territories including the
one that stopped the assault).  The three unit/territory accumulators are
`unsigned int` in C and accumulate with wrapping `uadd`; the win/loss
counters (`++`, bounded by the iteration count, itself an `unsigned int`)
cannot wrap in any C-reachable run and stay plain `Nat`. -/
def predictLoop (d : Nat → Nat) (av : AttackVectorDef) (bonus : Nat) :
    Nat → Nat → PredTotals × Nat
  | 0, pos => (⟨0, 0, 0, 0, 0⟩, pos)
  | n + 1, pos =>
      let r := simAttack d pos av bonus
      let rest := predictLoop d av bonus n r.2
      (if r.1.enemyUnitsOnFront = 0 then
        ⟨rest.1.winCount + 1, uadd rest.1.totalUnitsOnFront r.1.unitsOnFront,
         rest.1.lossCount, rest.1.totalEnemyUnits, rest.1.totalTerritories⟩
       else
        ⟨rest.1.winCount, rest.1.totalUnitsOnFront, rest.1.lossCount + 1,
         uadd rest.1.totalEnemyUnits (lossEnemyUnits av r.1),
         uadd rest.1.totalTerritories
           (av.territoryVector.length - r.1.conqueredTerritoryCount)⟩,
       rest.2)

/-- `PredictAttack` (src/main.c:463-531): run the simulation loop, then
derive the four statistics by division (src/main.c:525-528). -/
def predictAttack (d : Nat → Nat) (pos : Nat) (av : AttackVectorDef)
    (bonus iters : Nat) : AttackPrediction × Nat :=
  let t := predictLoop d av bonus iters pos
  (⟨fdiv t.1.winCount (t.1.winCount + t.1.lossCount),
    fdiv t.1.totalUnitsOnFront t.1.winCount,
    fdiv t.1.totalEnemyUnits t.1.lossCount,
    fdiv t.1.totalTerritories t.1.lossCount,
    t.1.winCount, t.1.lossCount⟩, t.2)

theorem fdiv_none_iff (a b : Nat) : fdiv a b = none ↔ b = 0 := by
  by_cases hb : b = 0 <;> simp [fdiv, hb]

theorem fdiv_some (a b : Nat) (q : ℚ) (h : fdiv a b = some q) :
    q = (a : ℚ) / (b : ℚ) := by
  by_cases hb : b = 0
  · simp [fdiv, hb] at h
  · simp [fdiv, hb] at h
    exact h.symm

theorem predictLoop_counts (d : Nat → Nat) (av : AttackVectorDef) (bonus : Nat) :
    ∀ (n pos : Nat),
      (predictLoop d av bonus n pos).1.winCount +
        (predictLoop d av bonus n pos).1.lossCount = n := by
  intro n
  induction n with
  | zero => intro pos; rfl
  | succ n ih =>
      intro pos
      simp only [predictLoop]
      split
      all_goals dsimp only
      all_goals have hpos := ih (simAttack d pos av bonus).2
      all_goals omega

/-- C6: in every prediction, `win_count + loss_count` equals the iteration
count; `win_likelihood` is `win_count` divided by that total; the
win-conditioned statistic is undefined (NaN, modelled `none`) exactly when
the win count is zero, the two loss-conditioned statistics exactly when the
loss count is zero, and with zero iterations all four derived fields are
undefined.  No case aborts, and an undefined field is `none`, never the
value zero. -/
theorem predict_stats_defined (d : Nat → Nat) (pos : Nat) (av : AttackVectorDef)
    (bonus iters : Nat) :
    (predictAttack d pos av bonus iters).1.winCount +
        (predictAttack d pos av bonus iters).1.lossCount = iters ∧
    (predictAttack d pos av bonus iters).1.winLikelihood =
        fdiv (predictAttack d pos av bonus iters).1.winCount iters ∧
    ((predictAttack d pos av bonus iters).1.winLikelihood = none ↔ iters = 0) ∧
    ((predictAttack d pos av bonus iters).1.estimatedRemainingUnitsIfWin = none ↔
        (predictAttack d pos av bonus iters).1.winCount = 0) ∧
    ((predictAttack d pos av bonus iters).1.estimatedRemainingEnemiesIfLoss = none ↔
        (predictAttack d pos av bonus iters).1.lossCount = 0) ∧
    ((predictAttack d pos av bonus iters).1.estimatedRemainingTerritoriesIfLoss = none ↔
        (predictAttack d pos av bonus iters).1.lossCount = 0) ∧
    (iters = 0 →
        (predictAttack d pos av bonus iters).1.winLikelihood = none ∧
        (predictAttack d pos av bonus iters).1.estimatedRemainingUnitsIfWin = none ∧
        (predictAttack d pos av bonus iters).1.estimatedRemainingEnemiesIfLoss = none ∧
        (predictAttack d pos av bonus iters).1.estimatedRemainingTerritoriesIfLoss = none) ∧
    (∀ q : ℚ, (predictAttack d pos av bonus iters).1.winLikelihood = some q →
        q = ((predictAttack d pos av bonus iters).1.winCount : ℚ) / (iters : ℚ)) := by
  have hcnt := predictLoop_counts d av bonus iters pos
  simp only [predictAttack, hcnt]
  refine ⟨trivial, trivial, by rw [fdiv_none_iff], by rw [fdiv_none_iff], by rw [fdiv_none_iff],
    by rw [fdiv_none_iff], ?_, ?_⟩
  · intro h0
    refine ⟨(fdiv_none_iff _ _).mpr h0, (fdiv_none_iff _ _).mpr (by omega),
      (fdiv_none_iff _ _).mpr (by omega), (fdiv_none_iff _ _).mpr (by omega)⟩
  · intro q hq
    exact fdiv_some _ _ q hq

theorem predict_stats_defined_w :
    (predictAttack d0 0 ⟨1, [⟨5⟩]⟩ 0 0).1.winLikelihood = none ∧
    (predictAttack d0 0 ⟨1, [⟨5⟩]⟩ 0 0).1.estimatedRemainingUnitsIfWin = none ∧
    (predictAttack d0 0 ⟨1, [⟨5⟩]⟩ 0 0).1.estimatedRemainingEnemiesIfLoss = none ∧
    (predictAttack d0 0 ⟨1, [⟨5⟩]⟩ 0 0).1.estimatedRemainingTerritoriesIfLoss = none :=
  (predict_stats_defined d0 0 ⟨1, [⟨5⟩]⟩ 0 0).2.2.2.2.2.2.1 rfl

theorem simAttackLoop_loss_conquered :
    ∀ (ts : List TerritoryDef) (d : Nat → Nat) (pos front : Nat),
      (simAttackLoop d pos front ts).1.enemyUnitsOnFront ≠ 0 →
      (simAttackLoop d pos front ts).1.conqueredTerritoryCount < ts.length := by
  intro ts
  induction ts with
  | nil =>
      intro d pos front h
      simp [simAttackLoop] at h
  | cons td rest ih =>
      intro d pos front h
      simp only [simAttackLoop] at h ⊢
      by_cases hc : (attackTerritory d pos front td.units).2.1 = 0
      · simp only [if_pos hc] at h ⊢
        have := ih d (attackTerritory d pos front td.units).2.2
          (usub (attackTerritory d pos front td.units).1 MIN_TERRITORY_UNITS) h
        simp only [List.length_cons]
        omega
      · simp only [if_neg hc] at h ⊢
        simp only [List.length_cons]
        omega

theorem uadd_lt (a b : Nat) : uadd a b < U32 := by
  simp only [uadd, U32]
  omega

theorem foldl_uadd_mod (l : List TerritoryDef) :
    ∀ (init : Nat),
      (l.foldl (fun acc td => uadd acc td.units) init) % U32 =
        (init + (l.map (fun td => td.units)).sum) % U32 := by
  induction l with
  | nil => intro init; simp
  | cons td rest ih =>
      intro init
      simp only [List.foldl_cons, List.map_cons, List.sum_cons]
      rw [ih (uadd init td.units)]
      simp only [uadd, U32]
      omega

theorem foldl_uadd_lt (l : List TerritoryDef) :
    ∀ (init : Nat), init < U32 →
      l.foldl (fun acc td => uadd acc td.units) init < U32 := by
  induction l with
  | nil => intro init h; simpa using h
  | cons td rest ih =>
      intro init _
      simp only [List.foldl_cons]
      exact ih _ (uadd_lt _ _)

/-- C5 (amended): a run classified as a loss (nonzero remaining enemy
units) contributes to the predictor's enemy-units accumulator — in
`unsigned int` arithmetic — the remaining defenders on the stopping
territory plus the full original defender counts of every territory
strictly after it: the contribution is congruent to that sum modulo
`2^32` and equals it exactly whenever the sum is below `2^32`; the
remaining-territories accumulator gains (mod `2^32`) exactly
`territory count - conquered count`, which includes the stopping
territory itself (the stopping territory exists: conquered count <
territory count; a loss on the very first territory contributes the full
territory count). -/
theorem predict_loss_accumulation (d : Nat → Nat) (pos : Nat)
    (av : AttackVectorDef) (bonus n : Nat)
    (hloss : (simAttack d pos av bonus).1.enemyUnitsOnFront ≠ 0) :
    (predictLoop d av bonus (n + 1) pos).1.totalEnemyUnits =
      uadd (predictLoop d av bonus n (simAttack d pos av bonus).2).1.totalEnemyUnits
        (lossEnemyUnits av (simAttack d pos av bonus).1) ∧
    lossEnemyUnits av (simAttack d pos av bonus).1 % U32 =
      ((simAttack d pos av bonus).1.enemyUnitsOnFront +
        ((av.territoryVector.drop
            ((simAttack d pos av bonus).1.conqueredTerritoryCount + 1)).map
          (fun td => td.units)).sum) % U32 ∧
    ((simAttack d pos av bonus).1.enemyUnitsOnFront +
        ((av.territoryVector.drop
            ((simAttack d pos av bonus).1.conqueredTerritoryCount + 1)).map
          (fun td => td.units)).sum < U32 →
      lossEnemyUnits av (simAttack d pos av bonus).1 =
        (simAttack d pos av bonus).1.enemyUnitsOnFront +
          ((av.territoryVector.drop
              ((simAttack d pos av bonus).1.conqueredTerritoryCount + 1)).map
            (fun td => td.units)).sum) ∧
    (predictLoop d av bonus (n + 1) pos).1.totalTerritories =
      uadd (predictLoop d av bonus n (simAttack d pos av bonus).2).1.totalTerritories
        (av.territoryVector.length -
          (simAttack d pos av bonus).1.conqueredTerritoryCount) ∧
    (simAttack d pos av bonus).1.conqueredTerritoryCount <
      av.territoryVector.length ∧
    ((simAttack d pos av bonus).1.conqueredTerritoryCount = 0 →
      av.territoryVector.length -
          (simAttack d pos av bonus).1.conqueredTerritoryCount =
        av.territoryVector.length) := by
  have hmod := foldl_uadd_mod
    (av.territoryVector.drop ((simAttack d pos av bonus).1.conqueredTerritoryCount + 1))
    (simAttack d pos av bonus).1.enemyUnitsOnFront
  refine ⟨?_, ?_, ?_, ?_, ?_, ?_⟩
  · simp only [predictLoop, if_neg hloss]
  · simp only [lossEnemyUnits]
    exact hmod
  · intro hb
    have hinit : (simAttack d pos av bonus).1.enemyUnitsOnFront < U32 := by omega
    have hlt := foldl_uadd_lt
      (av.territoryVector.drop ((simAttack d pos av bonus).1.conqueredTerritoryCount + 1))
      (simAttack d pos av bonus).1.enemyUnitsOnFront hinit
    simp only [lossEnemyUnits]
    simp only [U32] at hmod hlt hb ⊢
    omega
  · simp only [predictLoop, if_neg hloss]
  · exact simAttackLoop_loss_conquered av.territoryVector d pos
      (av.unitsOnFront + bonus) hloss
  · intro h0
    omega

theorem simAttack_loss_eval : simAttack d0 0 ⟨1, [⟨5⟩]⟩ 0 = (⟨0, 1, 5⟩, 0) := by
  have h1 : attackTerritory d0 0 1 5 = (1, 5, 0) :=
    attackTerritory_stop _ _ _ _ (by decide)
  simp only [simAttack, simAttackLoop, h1]
  norm_num

theorem predict_loss_accumulation_w :
    (simAttack d0 0 ⟨1, [⟨5⟩]⟩ 0).1.enemyUnitsOnFront ≠ 0 ∧
    (simAttack d0 0 ⟨1, [⟨5⟩]⟩ 0).1.conqueredTerritoryCount <
      (AttackVectorDef.mk 1 [⟨5⟩]).territoryVector.length ∧
    lossEnemyUnits ⟨1, [⟨5⟩]⟩ (simAttack d0 0 ⟨1, [⟨5⟩]⟩ 0).1 =
      (simAttack d0 0 ⟨1, [⟨5⟩]⟩ 0).1.enemyUnitsOnFront +
        (((AttackVectorDef.mk 1 [⟨5⟩]).territoryVector.drop
            ((simAttack d0 0 ⟨1, [⟨5⟩]⟩ 0).1.conqueredTerritoryCount + 1)).map
          (fun td => td.units)).sum :=
  ⟨by rw [simAttack_loss_eval]; decide,
   (predict_loss_accumulation d0 0 ⟨1, [⟨5⟩]⟩ 0 0
      (by rw [simAttack_loss_eval]; decide)).2.2.2.2.1,
   (predict_loss_accumulation d0 0 ⟨1, [⟨5⟩]⟩ 0 0
      (by rw [simAttack_loss_eval]; decide)).2.2.1
     (by rw [simAttack_loss_eval]; decide)⟩

/-- Attack vector `2:2147483647,2147483647,2147483647` — every field
parseable by `atoi` into an `unsigned int` and the run completes. -/
def avWrap : AttackVectorDef := ⟨2, [⟨2147483647⟩, ⟨2147483647⟩, ⟨2147483647⟩]⟩

theorem simAttackLoop_cons (d : Nat → Nat) (pos front : Nat) (td : TerritoryDef)
    (rest : List TerritoryDef) :
    simAttackLoop d pos front (td :: rest) =
      (if (attackTerritory d pos front td.units).2.1 = 0 then
        (⟨(simAttackLoop d (attackTerritory d pos front td.units).2.2
              (usub (attackTerritory d pos front td.units).1 MIN_TERRITORY_UNITS)
              rest).1.conqueredTerritoryCount + 1,
          (simAttackLoop d (attackTerritory d pos front td.units).2.2
              (usub (attackTerritory d pos front td.units).1 MIN_TERRITORY_UNITS)
              rest).1.unitsOnFront,
          (simAttackLoop d (attackTerritory d pos front td.units).2.2
              (usub (attackTerritory d pos front td.units).1 MIN_TERRITORY_UNITS)
              rest).1.enemyUnitsOnFront⟩,
         (simAttackLoop d (attackTerritory d pos front td.units).2.2
             (usub (attackTerritory d pos front td.units).1 MIN_TERRITORY_UNITS)
             rest).2)
       else
        (⟨0, (attackTerritory d pos front td.units).1,
          (attackTerritory d pos front td.units).2.1⟩,
         (attackTerritory d pos front td.units).2.2)) := rfl

theorem simAttack_avWrap_eval : simAttack d0 0 avWrap 0 = (⟨0, 1, 2147483647⟩, 3) := by
  have hs : singleAttack d0 0 2 2147483647 = (1, 2147483647, 3) := by decide
  have h1 : attackTerritory d0 0 2 2147483647 = (1, 2147483647, 3) := by
    rw [attackTerritory_step d0 0 2 2147483647 (by decide), hs]
    dsimp only
    exact attackTerritory_stop d0 3 1 2147483647 (by decide)
  show simAttackLoop d0 0 2 [⟨2147483647⟩, ⟨2147483647⟩, ⟨2147483647⟩] =
    (⟨0, 1, 2147483647⟩, 3)
  rw [simAttackLoop_cons]
  dsimp only
  rw [h1]
  dsimp only
  rw [if_neg (by decide)]

/-- C5 counterexample: one simulated run of `avWrap` with the all-zero die
stream loses on the first territory with `r = 2147483647` defenders
remaining, and the program's `unsigned int` loop accumulates
`(r + 2147483647 + 2147483647) mod 2^32 = 2147483645` enemy units — not
the exact sum `6442450941` the claim states, which exceeds `2^32` and
wraps.  The final conjunct refutes the claimed exact-increment equation at
this input. -/
theorem predict_loss_wraps_cx :
    (simAttack d0 0 avWrap 0).1.enemyUnitsOnFront ≠ 0 ∧
    (predictLoop d0 avWrap 0 (0 + 1) 0).1.totalEnemyUnits = 2147483645 ∧
    (simAttack d0 0 avWrap 0).1.enemyUnitsOnFront +
      ((avWrap.territoryVector.drop
          ((simAttack d0 0 avWrap 0).1.conqueredTerritoryCount + 1)).map
        (fun td => td.units)).sum = 6442450941 ∧
    (predictLoop d0 avWrap 0 (0 + 1) 0).1.totalEnemyUnits ≠
      (predictLoop d0 avWrap 0 0 (simAttack d0 0 avWrap 0).2).1.totalEnemyUnits +
        ((simAttack d0 0 avWrap 0).1.enemyUnitsOnFront +
          ((avWrap.territoryVector.drop
              ((simAttack d0 0 avWrap 0).1.conqueredTerritoryCount + 1)).map
            (fun td => td.units)).sum) := by
  have h := simAttack_avWrap_eval
  have hle : lossEnemyUnits avWrap (⟨0, 1, 2147483647⟩ : AttackResult) = 2147483645 := by
    decide
  have hA : (predictLoop d0 avWrap 0 (0 + 1) 0).1.totalEnemyUnits = 2147483645 := by
    simp only [predictLoop, h]
    norm_num [hle, uadd, U32]
  have hB : (simAttack d0 0 avWrap 0).1.enemyUnitsOnFront +
      ((avWrap.territoryVector.drop
          ((simAttack d0 0 avWrap 0).1.conqueredTerritoryCount + 1)).map
        (fun td => td.units)).sum = 6442450941 := by
    rw [h]
    decide
  have hC : (predictLoop d0 avWrap 0 0 (simAttack d0 0 avWrap 0).2).1.totalEnemyUnits = 0 :=
    rfl
  refine ⟨by rw [h]; decide, hA, hB, ?_⟩
  rw [hA, hC, hB]
  decide

instance : IsTotal Nat (fun a b : Nat => b ≤ a) := ⟨fun a b => le_total b a⟩

instance : IsTrans Nat (fun a b : Nat => b ≤ a) := ⟨fun _ _ _ h1 h2 => le_trans h2 h1⟩

theorem sortDesc_sorted (l : List Nat) : List.Sorted (fun a b : Nat => b ≤ a) (sortDesc l) :=
  List.sorted_insertionSort _ l

theorem sortDesc_mem (x : Nat) (l : List Nat) : x ∈ sortDesc l ↔ x ∈ l :=
  (List.perm_insertionSort _ l).mem_iff

theorem sortDesc_length (l : List Nat) : (sortDesc l).length = l.length :=
  List.length_insertionSort _ l

theorem uniformDiceRoll_mem (s : Nat → Nat) :
    ∀ (fuel pos v p : Nat), uniformDiceRoll s pos fuel = some (v, p) →
      1 ≤ v ∧ v ≤ 6 := by
  intro fuel
  induction fuel with
  | zero => intro pos v p h; exact absurd h (by simp [uniformDiceRoll])
  | succ fuel ih =>
      intro pos v p h
      simp only [uniformDiceRoll] at h
      by_cases hc : s pos < MAX_DICE_RAND_VALUE
      · rw [if_pos hc] at h
        injection h with h
        injection h with h1 h2
        subst h1
        have : s pos % 6 < 6 := Nat.mod_lt _ (by omega)
        simp only [faceOf, DICE_SIDES]
        omega
      · rw [if_neg hc] at h
        exact ih (pos + 1) v p h

theorem rollDiceRaw_spec (s : Nat → Nat) (fuel : Nat) :
    ∀ (n pos : Nat) (vs : List Nat) (p : Nat),
      rollDiceRaw s fuel pos n = some (vs, p) →
      vs.length = n ∧ ∀ v ∈ vs, 1 ≤ v ∧ v ≤ 6 := by
  intro n
  induction n with
  | zero =>
      intro pos vs p h
      simp only [rollDiceRaw] at h
      injection h with h
      injection h with h1 h2
      subst h1
      exact ⟨rfl, by simp⟩
  | succ n ih =>
      intro pos vs p h
      simp only [rollDiceRaw] at h
      rcases huv : uniformDiceRoll s pos fuel with _ | ⟨v, pos₁⟩
      · rw [huv] at h; simp at h
      · rw [huv] at h
        dsimp only at h
        rcases hrr : rollDiceRaw s fuel pos₁ n with _ | ⟨vs₁, pos₂⟩
        · rw [hrr] at h; simp at h
        · rw [hrr] at h
          dsimp only at h
          injection h with h
          injection h with h1 h2
          subst h1
          have hv := uniformDiceRoll_mem s fuel pos v pos₁ huv
          have hrec := ih pos₁ vs₁ pos₂ hrr
          refine ⟨by simp [hrec.1], ?_⟩
          intro x hx
          rcases List.mem_cons.mp hx with hx | hx
          · exact hx ▸ hv
          · exact hrec.2 x hx

/-- C9: whenever `RollDice` returns (the rejection loops all terminate
within the fuel), for a dice count in {1,2,3} it returns exactly `count`
values, each a face in `[1, 6]`, sorted in non-increasing order. -/
theorem roll_spec (s : Nat → Nat) (fuel pos c : Nat) (hc1 : 1 ≤ c) (hc2 : c ≤ 3)
    (dice : List Nat) (pos' : Nat) (h : rollDice s fuel pos c = some (dice, pos')) :
    dice.length = c ∧ (∀ v ∈ dice, 1 ≤ v ∧ v ≤ 6) ∧
      List.Sorted (fun a b : Nat => b ≤ a) dice := by
  rcases hr : rollDiceRaw s fuel pos c with _ | ⟨vs, p⟩
  · rw [rollDice, hr] at h
    exact Option.noConfusion h
  · rw [rollDice, hr] at h
    dsimp only [Option.map] at h
    injection h with h
    injection h with h1 h2
    have hspec := rollDiceRaw_spec s fuel c pos vs p hr
    subst h1
    refine ⟨?_, ?_, sortDesc_sorted vs⟩
    · rw [sortDesc_length, hspec.1]
    · intro v hv
      exact hspec.2 v ((sortDesc_mem v vs).mp hv)

theorem roll_spec_w :
    1 ≤ 2 ∧ 2 ≤ 3 ∧ rollDice d0 1 0 2 = some ([1, 1], 2) ∧
      (([1, 1] : List Nat).length = 2 ∧ (∀ v ∈ ([1, 1] : List Nat), 1 ≤ v ∧ v ≤ 6) ∧
        List.Sorted (fun a b : Nat => b ≤ a) ([1, 1] : List Nat)) :=
  ⟨by decide, by decide, by decide,
    roll_spec d0 1 0 2 (by decide) (by decide) [1, 1] 2 (by decide)⟩

/-- Count of raw generator values in `[0, M]` that `UniformDiceRoll`
accepts (raw value `< MAX_DICE_RAND_VALUE`) and maps to the given face.
`M` is the maximum output of the underlying generator (`RAND_MAX` for C
`rand()`). -/
def acceptedFaceCount (M face : Nat) : Nat :=
  ((List.range (M + 1)).filter (fun v => v < MAX_DICE_RAND_VALUE ∧ faceOf v = face)).length

/-- Characterisation of the accepted values behind a returned die: the
value is the face of the first raw stream value below the rejection
threshold `MAX_DICE_RAND_VALUE`; every earlier value was rejected and
redrawn. -/
theorem uniformDiceRoll_accepts (s : Nat → Nat) :
    ∀ (fuel pos v p : Nat), uniformDiceRoll s pos fuel = some (v, p) →
      ∃ i, pos ≤ i ∧ p = i + 1 ∧ s i < MAX_DICE_RAND_VALUE ∧ v = faceOf (s i) ∧
        ∀ j, pos ≤ j → j < i → MAX_DICE_RAND_VALUE ≤ s j := by
  intro fuel
  induction fuel with
  | zero => intro pos v p h; exact absurd h (by simp [uniformDiceRoll])
  | succ fuel ih =>
      intro pos v p h
      simp only [uniformDiceRoll] at h
      by_cases hc : s pos < MAX_DICE_RAND_VALUE
      · rw [if_pos hc] at h
        injection h with h
        injection h with h1 h2
        exact ⟨pos, le_refl pos, h2.symm, hc, h1.symm, fun j hj1 hj2 => by omega⟩
      · rw [if_neg hc] at h
        obtain ⟨i, hi1, hi2, hi3, hi4, hi5⟩ := ih (pos + 1) v p h
        refine ⟨i, by omega, hi2, hi3, hi4, ?_⟩
        intro j hj1 hj2
        rcases Nat.eq_or_lt_of_le hj1 with hj | hj
        · subst hj
          omega
        · exact hi5 j (by omega) hj2

theorem filter_range_lt_and (p : Nat → Prop) [DecidablePred p] :
    ∀ (n m : Nat), m ≤ n →
      ((List.range n).filter (fun v => v < m ∧ p v)).length =
        ((List.range m).filter (fun v => p v)).length := by
  intro n
  induction n with
  | zero =>
      intro m hm
      have : m = 0 := by omega
      subst this
      rfl
  | succ n ih =>
      intro m hm
      by_cases hmn : m = n + 1
      · subst hmn
        have he : ((List.range (n + 1)).filter (fun v => v < n + 1 ∧ p v)) =
            ((List.range (n + 1)).filter (fun v => p v)) := by
          apply List.filter_congr
          intro x hx
          have hx' := List.mem_range.mp hx
          by_cases hp : p x <;> simp [hx', hp]
        rw [he]
      · have hm' : m ≤ n := by omega
        rw [List.range_succ, List.filter_append, List.length_append]
        have : ([n].filter (fun v => v < m ∧ p v)) = [] := by
          simp only [List.filter_singleton]
          have : ¬ (n < m ∧ p n) := by
            intro hcon
            omega
          simp [this]
        rw [this]
        simp only [List.length_nil, Nat.add_zero]
        exact ih m hm'

theorem filter_range_mod (r : Nat) (hr : r < 6) :
    ∀ (n : Nat), ((List.range n).filter (fun v => v % 6 = r)).length =
      n / 6 + (if r < n % 6 then 1 else 0) := by
  intro n
  induction n with
  | zero => simp
  | succ n ih =>
      rw [List.range_succ, List.filter_append, List.length_append, ih]
      by_cases h : n % 6 = r
      · simp only [List.filter_singleton, h]
        simp only [decide_True, cond_true, List.length_singleton]
        split_ifs <;> omega
      · simp only [List.filter_singleton]
        have : (decide (n % 6 = r)) = false := by simp [h]
        rw [this]
        simp only [cond_false, List.length_nil]
        split_ifs <;> omega

theorem acceptedFaceCount_eq_mod (M f : Nat) (hM : M + 1 ≤ MAX_DICE_RAND_VALUE)
    (hf : 1 ≤ f) :
    acceptedFaceCount M f =
      ((List.range (M + 1)).filter (fun v => v % 6 = f - 1)).length := by
  unfold acceptedFaceCount
  apply congrArg List.length
  apply List.filter_congr
  intro x hx
  have hx' : x < M + 1 := List.mem_range.mp hx
  have hlt : x < MAX_DICE_RAND_VALUE := by omega
  simp only [faceOf, DICE_SIDES, hlt, true_and, decide_eq_decide]
  omega

/-- C7 (amended): the rejection threshold `MAX_DICE_RAND_VALUE` is the
largest multiple of 6 not exceeding `UINT_MAX` — not the generator's
maximum output — so the faces are equinumerous over the accepted raw
values exactly when the generator covers `[0, UINT_MAX]`: in that case
every face `1..6` is hit by exactly `MAX_DICE_RAND_VALUE / 6 = 715827882`
accepted raw values.  For a generator with a smaller maximum (such as C
`rand()` with `RAND_MAX = 2^31 - 1`) the threshold is never reached and
modulo bias remains. -/
theorem uniformDiceRoll_no_bias_full_range (f : Nat) (hf1 : 1 ≤ f) (hf6 : f ≤ 6) :
    acceptedFaceCount UINT_MAX f = MAX_DICE_RAND_VALUE / DICE_SIDES := by
  unfold acceptedFaceCount
  rw [filter_range_lt_and (fun v => faceOf v = f) (UINT_MAX + 1) MAX_DICE_RAND_VALUE
    (by decide)]
  have he : ((List.range MAX_DICE_RAND_VALUE).filter (fun v => faceOf v = f)) =
      ((List.range MAX_DICE_RAND_VALUE).filter (fun v => v % 6 = f - 1)) := by
    apply List.filter_congr
    intro x hx
    simp only [faceOf, DICE_SIDES, decide_eq_decide]
    omega
  rw [he, filter_range_mod (f - 1) (by omega)]
  have h0 : MAX_DICE_RAND_VALUE % 6 = 0 := by decide
  rw [h0, if_neg (Nat.not_lt_zero (f - 1))]
  simp only [DICE_SIDES, Nat.add_zero]

theorem uniformDiceRoll_no_bias_full_range_w :
    1 ≤ 1 ∧ (1 : Nat) ≤ 6 ∧
      acceptedFaceCount UINT_MAX 1 = MAX_DICE_RAND_VALUE / DICE_SIDES :=
  ⟨by decide, by decide, uniformDiceRoll_no_bias_full_range 1 (by decide) (by decide)⟩

/-- C7 counterexample: for a generator with maximum output
`RAND_MAX = 2^31 - 1 = 2147483647` (the C `rand()` guarantee on the
targeted platform), every raw value is below the rejection threshold
`MAX_DICE_RAND_VALUE = 4294967292`, so nothing is ever rejected and the
`2^31` raw values do not split evenly over the 6 faces: face 1 receives
357913942 raw values and face 3 only 357913941.  The claim that each face
has the same number of accepted raw values for every possible generator
range is false. -/
theorem uniformDiceRoll_bias_cx :
    acceptedFaceCount 2147483647 1 = 357913942 ∧
    acceptedFaceCount 2147483647 3 = 357913941 ∧
    acceptedFaceCount 2147483647 1 ≠ acceptedFaceCount 2147483647 3 := by
  have h1 : acceptedFaceCount 2147483647 1 =
      ((List.range 2147483648).filter (fun v => v % 6 = 0)).length :=
    acceptedFaceCount_eq_mod 2147483647 1 (by decide) (by decide)
  have h3 : acceptedFaceCount 2147483647 3 =
      ((List.range 2147483648).filter (fun v => v % 6 = 2)).length :=
    acceptedFaceCount_eq_mod 2147483647 3 (by decide) (by decide)
  have e1 : acceptedFaceCount 2147483647 1 = 357913942 := by
    rw [h1, filter_range_mod 0 (by omega)]
    decide
  have e3 : acceptedFaceCount 2147483647 3 = 357913941 := by
    rw [h3, filter_range_mod 2 (by omega)]
    decide
  exact ⟨e1, e3, by omega⟩

/-- `NextCombination` (src/main.c:562-581): increment a little-endian
mixed-radix counter whose digits each range over `[0, last]`; digit 0 (the
list head, `indices[0]`) cycles fastest; a digit overflowing resets to 0
and carries into the next; `none` models `combinations_exhausted`. -/
def nextCombination : List Nat → Nat → Option (List Nat)
  | [], _ => none
  | x :: rest, last =>
      if x + 1 ≤ last then some ((x + 1) :: rest)
      else
        match nextCombination rest last with
        | some rest₁ => some (0 :: rest₁)
        | none => none

/-- Numeric value of a counter state: digit i has weight `(B+1)^i`. -/
def tupleVal (B : Nat) : List Nat → Nat
  | [] => 0
  | x :: rest => x + (B + 1) * tupleVal B rest

/-- The sequence of counter states visited by the `do`-loop of `PlanWar`
(src/main.c:640-676): the current state, then all successors produced by
`NextCombination` until exhaustion; `fuel` bounds the number of steps and
equals the number of remaining states when the loop is entered at `t`. -/
def enumFrom (B : Nat) : List Nat → Nat → List (List Nat)
  | t, 0 => [t]
  | t, fuel + 1 =>
      t :: (match nextCombination t B with
        | none => []
        | some u => enumFrom B u fuel)

/-- The bonus tuples `PlanWar` materializes into plans: every counter state
visited starting from all zeros (`InitCombinations`, src/main.c:555-560)
whose digits sum to `bonus_units` (src/main.c:663-664). -/
def planTuples (B V : Nat) : List (List Nat) :=
  (enumFrom B (List.replicate V 0) ((B + 1) ^ V - 1)).filter (fun t => t.sum = B)

theorem list_le_sum : ∀ (l : List Nat), ∀ x ∈ l, x ≤ l.sum := by
  intro l
  induction l with
  | nil => intro x hx; simp at hx
  | cons a l ih =>
      intro x hx
      rcases List.mem_cons.mp hx with h | h
      · subst h; simp only [List.sum_cons]; omega
      · have := ih x h; simp only [List.sum_cons]; omega

theorem tupleVal_replicate_zero (B : Nat) : ∀ V, tupleVal B (List.replicate V 0) = 0 := by
  intro V
  induction V with
  | zero => rfl
  | succ V ih => simp [List.replicate, tupleVal, ih]

theorem tupleVal_lt_pow (B : Nat) :
    ∀ (t : List Nat), (∀ x ∈ t, x ≤ B) → tupleVal B t < (B + 1) ^ t.length := by
  intro t
  induction t with
  | nil => intro _; simp [tupleVal]
  | cons x rest ih =>
      intro hb
      have hvr := ih (fun z hz => hb z (List.mem_cons_of_mem _ hz))
      have hx := hb x (List.mem_cons_self x rest)
      simp only [tupleVal, List.length_cons]
      rw [pow_succ, mul_comm ((B + 1) ^ rest.length) (B + 1)]
      have h1 : (B + 1) * (tupleVal B rest + 1) ≤ (B + 1) * ((B + 1) ^ rest.length) :=
        Nat.mul_le_mul_left (B + 1) hvr
      rw [Nat.mul_succ] at h1
      omega

theorem tupleVal_inj (B : Nat) :
    ∀ (t u : List Nat), t.length = u.length → (∀ x ∈ t, x ≤ B) → (∀ x ∈ u, x ≤ B) →
      tupleVal B t = tupleVal B u → t = u := by
  intro t
  induction t with
  | nil =>
      intro u hlen _ _ _
      exact (List.length_eq_zero.mp hlen.symm).symm
  | cons x rest ih =>
      intro u hlen hbt hbu hval
      rcases u with _ | ⟨y, urest⟩
      · simp at hlen
      · have hx := hbt x (List.mem_cons_self x rest)
        have hy := hbu y (List.mem_cons_self y urest)
        simp only [tupleVal] at hval
        have h1 : (x + (B + 1) * tupleVal B rest) % (B + 1) = x := by
          rw [Nat.add_mul_mod_self_left]
          exact Nat.mod_eq_of_lt (by omega)
        have h2 : (y + (B + 1) * tupleVal B urest) % (B + 1) = y := by
          rw [Nat.add_mul_mod_self_left]
          exact Nat.mod_eq_of_lt (by omega)
        rw [hval] at h1
        have hxy : x = y := h1.symm.trans h2
        subst hxy
        have h3 : (B + 1) * tupleVal B rest = (B + 1) * tupleVal B urest := by omega
        have h4 : tupleVal B rest = tupleVal B urest :=
          Nat.eq_of_mul_eq_mul_left (by omega) h3
        have h5 := ih urest (by simpa using hlen)
          (fun z hz => hbt z (List.mem_cons_of_mem _ hz))
          (fun z hz => hbu z (List.mem_cons_of_mem _ hz)) h4
        rw [h5]

theorem tupleVal_all_max (B : Nat) :
    ∀ (t : List Nat), (∀ x ∈ t, x = B) → tupleVal B t = (B + 1) ^ t.length - 1 := by
  intro t
  induction t with
  | nil => intro _; simp [tupleVal]
  | cons x rest ih =>
      intro hall
      have hx := hall x (List.mem_cons_self x rest)
      have hr := ih (fun z hz => hall z (List.mem_cons_of_mem _ hz))
      have hP : 1 ≤ (B + 1) ^ rest.length := Nat.one_le_pow _ _ (by omega)
      simp only [tupleVal, List.length_cons, hr, hx]
      rw [pow_succ, mul_comm ((B + 1) ^ rest.length) (B + 1)]
      have h2 : (B + 1) * ((B + 1) ^ rest.length - 1) + (B + 1) =
          (B + 1) * (B + 1) ^ rest.length := by
        have h3 := Nat.sub_add_cancel hP
        calc (B + 1) * ((B + 1) ^ rest.length - 1) + (B + 1)
            = (B + 1) * ((B + 1) ^ rest.length - 1 + 1) := by rw [Nat.mul_succ]
          _ = (B + 1) * (B + 1) ^ rest.length := by rw [h3]
      omega

theorem nextCombination_none (B : Nat) :
    ∀ (t : List Nat), (∀ x ∈ t, x ≤ B) → nextCombination t B = none →
      ∀ x ∈ t, x = B := by
  intro t
  induction t with
  | nil => intro _ _ x hx; simp at hx
  | cons a rest ih =>
      intro hb hn x hx
      simp only [nextCombination] at hn
      by_cases hc : a + 1 ≤ B
      · rw [if_pos hc] at hn; exact Option.noConfusion hn
      · rw [if_neg hc] at hn
        rcases hrec : nextCombination rest B with _ | u
        · rcases List.mem_cons.mp hx with h | h
          · have := hb a (List.mem_cons_self a rest)
            omega
          · exact ih (fun z hz => hb z (List.mem_cons_of_mem _ hz)) hrec x h
        · rw [hrec] at hn
          dsimp only at hn
          exact Option.noConfusion hn

theorem nextCombination_some (B : Nat) :
    ∀ (t t' : List Nat), (∀ x ∈ t, x ≤ B) → nextCombination t B = some t' →
      t'.length = t.length ∧ (∀ x ∈ t', x ≤ B) ∧
        tupleVal B t' = tupleVal B t + 1 := by
  intro t
  induction t with
  | nil => intro t' _ hn; exact Option.noConfusion hn
  | cons a rest ih =>
      intro t' hb hn
      simp only [nextCombination] at hn
      by_cases hc : a + 1 ≤ B
      · rw [if_pos hc] at hn
        injection hn with hn
        subst hn
        refine ⟨by simp, ?_, by simp only [tupleVal]; omega⟩
        intro x hx
        rcases List.mem_cons.mp hx with h | h
        · omega
        · exact hb x (List.mem_cons_of_mem _ h)
      · rw [if_neg hc] at hn
        rcases hrec : nextCombination rest B with _ | u
        · rw [hrec] at hn; dsimp only at hn; exact Option.noConfusion hn
        · rw [hrec] at hn
          dsimp only at hn
          injection hn with hn
          subst hn
          have hr := ih u (fun z hz => hb z (List.mem_cons_of_mem _ hz)) hrec
          have ha : a = B := by
            have := hb a (List.mem_cons_self a rest)
            omega
          refine ⟨by simp [hr.1], ?_, ?_⟩
          · intro x hx
            rcases List.mem_cons.mp hx with h | h
            · omega
            · exact hr.2.1 x h
          · simp only [tupleVal, hr.2.2]
            rw [Nat.mul_succ]
            omega

theorem enumFrom_sound (B : Nat) :
    ∀ (fuel : Nat) (t : List Nat), (∀ x ∈ t, x ≤ B) →
      ∀ u ∈ enumFrom B t fuel,
        u.length = t.length ∧ (∀ x ∈ u, x ≤ B) ∧ tupleVal B t ≤ tupleVal B u := by
  intro fuel
  induction fuel with
  | zero =>
      intro t hb u hu
      simp only [enumFrom, List.mem_singleton] at hu
      subst hu
      exact ⟨rfl, hb, le_refl _⟩
  | succ fuel ih =>
      intro t hb u hu
      simp only [enumFrom] at hu
      rcases List.mem_cons.mp hu with h | h
      · subst h; exact ⟨rfl, hb, le_refl _⟩
      · rcases hnc : nextCombination t B with _ | v
        · rw [hnc] at h; simp at h
        · rw [hnc] at h
          dsimp only at h
          have hv := nextCombination_some B t v hb hnc
          have hrec := ih v hv.2.1 u h
          exact ⟨hrec.1.trans hv.1, hrec.2.1, by omega⟩

theorem enumFrom_complete (B : Nat) :
    ∀ (fuel : Nat) (t : List Nat), (∀ x ∈ t, x ≤ B) →
      tupleVal B t + fuel + 1 = (B + 1) ^ t.length →
      ∀ u, u.length = t.length → (∀ x ∈ u, x ≤ B) →
        tupleVal B t ≤ tupleVal B u → u ∈ enumFrom B t fuel := by
  intro fuel
  induction fuel with
  | zero =>
      intro t hb hfuel u hlen hub hval
      have hmax := tupleVal_lt_pow B u hub
      rw [hlen] at hmax
      have hequ : tupleVal B u = tupleVal B t := by omega
      have := tupleVal_inj B u t hlen hub hb hequ
      simp [enumFrom, this]
  | succ fuel ih =>
      intro t hb hfuel u hlen hub hval
      simp only [enumFrom]
      rcases Nat.eq_or_lt_of_le hval with heq | hlt
      · have := tupleVal_inj B t u hlen.symm hb hub heq
        subst this
        exact List.mem_cons_self t _
      · rcases hnc : nextCombination t B with _ | v
        · exfalso
          have hall := nextCombination_none B t hb hnc
          have hmax := tupleVal_all_max B t hall
          have humax := tupleVal_lt_pow B u hub
          rw [hlen] at humax
          omega
        · have hv := nextCombination_some B t v hb hnc
          apply List.mem_cons_of_mem
          dsimp only
          exact ih v hv.2.1 (by rw [hv.1, hv.2.2]; omega) u (hlen.trans hv.1.symm)
            hub (by omega)

theorem enumFrom_nodup (B : Nat) :
    ∀ (fuel : Nat) (t : List Nat), (∀ x ∈ t, x ≤ B) → (enumFrom B t fuel).Nodup := by
  intro fuel
  induction fuel with
  | zero => intro t _; simp [enumFrom]
  | succ fuel ih =>
      intro t hb
      simp only [enumFrom]
      rcases hnc : nextCombination t B with _ | v
      · simp
      · dsimp only
        have hv := nextCombination_some B t v hb hnc
        rw [List.nodup_cons]
        refine ⟨?_, ih v hv.2.1⟩
        intro hmem
        have := enumFrom_sound B fuel v hv.2.1 t hmem
        omega

theorem planTuples_iff (B V : Nat) (t : List Nat) :
    t ∈ planTuples B V ↔ (t.length = V ∧ (∀ x ∈ t, x ≤ B) ∧ t.sum = B) := by
  have hrep : ∀ x ∈ List.replicate V (0 : Nat), x ≤ B := by
    intro x hx
    rw [List.eq_of_mem_replicate hx]
    omega
  constructor
  · intro ht
    have ht' := List.mem_filter.mp ht
    have hs := enumFrom_sound B _ _ hrep t ht'.1
    refine ⟨by simpa using hs.1, hs.2.1, by simpa using ht'.2⟩
  · rintro ⟨h1, h2, h3⟩
    apply List.mem_filter.mpr
    refine ⟨?_, by simp [h3]⟩
    have hP : 1 ≤ (B + 1) ^ V := Nat.one_le_pow _ _ (by omega)
    apply enumFrom_complete B ((B + 1) ^ V - 1) (List.replicate V 0) hrep
    · rw [tupleVal_replicate_zero]
      simp only [List.length_replicate]
      omega
    · simp [h1]
    · exact h2
    · rw [tupleVal_replicate_zero]
      omega

theorem planTuples_nodup (B V : Nat) : (planTuples B V).Nodup := by
  have hrep : ∀ x ∈ List.replicate V (0 : Nat), x ≤ B := by
    intro x hx
    rw [List.eq_of_mem_replicate hx]
    omega
  exact List.Nodup.filter _ (enumFrom_nodup B _ _ hrep)

/-- C2: the tuples the planner materializes into plans are exactly the
`V`-tuples of naturals with every component in `[0, B]` summing to `B`,
each exactly once (`Nodup`); for `B = 2`, `V = 2` the materialized tuples
are exactly `(2,0), (1,1), (0,2)` (list head = vector 0's bonus), i.e. the
set `{(0,2),(1,1),(2,0)}` with none missing, none repeated and none of a
different sum. -/
theorem planner_enumerates_exact_tuples (V B : Nat) (hV : 1 ≤ V) (hB : 1 ≤ B) :
    (∀ t, t ∈ planTuples B V ↔
      (t.length = V ∧ (∀ x ∈ t, x ≤ B) ∧ t.sum = B)) ∧
    (planTuples B V).Nodup ∧
    planTuples 2 2 = [[2, 0], [1, 1], [0, 2]] :=
  ⟨fun t => planTuples_iff B V t, planTuples_nodup B V, by decide⟩

theorem planner_enumerates_exact_tuples_w :
    1 ≤ 2 ∧
    ([1, 1] ∈ planTuples 2 2 ↔
      (([1, 1] : List Nat).length = 2 ∧ (∀ x ∈ ([1, 1] : List Nat), x ≤ 2) ∧
        ([1, 1] : List Nat).sum = 2)) ∧
    (planTuples 2 2).Nodup ∧
    planTuples 2 2 = [[2, 0], [1, 1], [0, 2]] :=
  ⟨by decide,
   (planner_enumerates_exact_tuples 2 2 (by decide) (by decide)).1 [1, 1],
   (planner_enumerates_exact_tuples 2 2 (by decide) (by decide)).2.1,
   (planner_enumerates_exact_tuples 2 2 (by decide) (by decide)).2.2⟩

/-- Threshold gating of a setup's score (src/main.c:627-632): the win
likelihood when `win_likelihood >= likelihood_threshold`, else 0.  A NaN
likelihood (`none`, zero iterations) compares false in C and scores 0. -/
def setupScore (thr : ℚ) (p : AttackPrediction) : ℚ :=
  match p.winLikelihood with
  | some w => if thr ≤ w then w else 0
  | none => 0

/-- Source `struct attack_setup` (src/main.c:114-120); the back-pointer to
the attack vector is dropped (the row index identifies the vector). -/
structure AttackSetup where
  prediction : AttackPrediction
  bonus : Nat
  score : ℚ
deriving DecidableEq

/-- Default used for the (never reached) out-of-range table lookups. -/
def emptySetup : AttackSetup := ⟨⟨none, none, none, none, 0, 0⟩, 0, 0⟩

/-- Phase A inner loop of `PlanWar` (src/main.c:610-633): setups of one
vector for the `n` bonus amounts `b0, b0+1, …`, threading the random
stream. -/
def buildRow (d : Nat → Nat) (av : AttackVectorDef) (iters : Nat) (thr : ℚ) :
    Nat → Nat → Nat → List AttackSetup × Nat
  | pos, _, 0 => ([], pos)
  | pos, bonus, n + 1 =>
      let pr := predictAttack d pos av bonus iters
      let rest := buildRow d av iters thr pr.2 (bonus + 1) n
      (⟨pr.1, bonus, setupScore thr pr.1⟩ :: rest.1, rest.2)

/-- Phase A outer loop of `PlanWar` (src/main.c:605-634): the
`V × (bonus_units+1)` table of setups; row `i` belongs to vector `i`,
column `b` to bonus amount `b`. -/
def buildTable (d : Nat → Nat) (B iters : Nat) (thr : ℚ) :
    Nat → List AttackVectorDef → List (List AttackSetup) × Nat
  | pos, [] => ([], pos)
  | pos, av :: rest =>
      let row := buildRow d av iters thr pos 0 (B + 1)
      let rows := buildTable d B iters thr row.2 rest
      (row.1 :: rows.1, rows.2)

/-- Total score of the plan for a bonus tuple: the sum of the chosen
setups' scores (src/main.c:649-661). -/
def planScore (table : List (List AttackSetup)) (t : List Nat) : ℚ :=
  ((table.zip t).map (fun p => (p.1.getD p.2 emptySetup).score)).sum

/-- Phase B of `PlanWar` (src/main.c:636-676): one retained plan per
admissible bonus tuple, carrying the tuple and its total score. -/
def planWarPlans (d : Nat → Nat) (pos : Nat) (avs : List AttackVectorDef)
    (B iters : Nat) (thr : ℚ) : List (List Nat × ℚ) :=
  (planTuples B avs.length).map
    (fun t => (t, planScore (buildTable d B iters thr pos avs).1 t))

theorem planWarPlans_eq (d : Nat → Nat) (pos : Nat) (avs : List AttackVectorDef)
    (B iters : Nat) (thr : ℚ) :
    planWarPlans d pos avs B iters thr =
      (planTuples B avs.length).map
        (fun t => (t, planScore (buildTable d B iters thr pos avs).1 t)) := rfl

/-- Descending order on plans induced by the `ComparePlan` comparator
(src/main.c:272-287): a plan may precede another exactly when its total
score is not smaller. -/
def planOrder (p q : List Nat × ℚ) : Prop := q.2 ≤ p.2

instance : DecidableRel planOrder := fun p q => inferInstanceAs (Decidable (q.2 ≤ p.2))

instance : IsTotal (List Nat × ℚ) planOrder := ⟨fun p q => le_total q.2 p.2⟩

instance : IsTrans (List Nat × ℚ) planOrder := ⟨fun _ _ _ h1 h2 => le_trans h2 h1⟩

/-- The reported plan of `PlanWar`: sort the retained plans descending by
total score (`qsort` with `ComparePlan`) and take `plans[0]`
(src/main.c:678-683). -/
def planWarBest (d : Nat → Nat) (pos : Nat) (avs : List AttackVectorDef)
    (B iters : Nat) (thr : ℚ) : List Nat × ℚ :=
  ((planWarPlans d pos avs B iters thr).insertionSort planOrder).headD ([], 0)

theorem buildRow_entry (d : Nat → Nat) (av : AttackVectorDef) (iters : Nat) (thr : ℚ) :
    ∀ (n b0 pos k : Nat), k < n →
      ((buildRow d av iters thr pos b0 n).1.getD k emptySetup).score =
        setupScore thr ((buildRow d av iters thr pos b0 n).1.getD k emptySetup).prediction ∧
      ((buildRow d av iters thr pos b0 n).1.getD k emptySetup).bonus = b0 + k := by
  intro n
  induction n with
  | zero => intro b0 pos k hk; exact absurd hk (by omega)
  | succ n ih =>
      intro b0 pos k hk
      rcases k with _ | k
      · simp [buildRow, List.getD_cons_zero]
      · have hrec := ih (b0 + 1) (predictAttack d pos av b0 iters).2 k (by omega)
        simp only [buildRow, List.getD_cons_succ]
        exact ⟨hrec.1, by rw [hrec.2]; omega⟩

theorem buildTable_entry (d : Nat → Nat) (B iters : Nat) (thr : ℚ) :
    ∀ (avs : List AttackVectorDef) (pos i b : Nat), i < avs.length → b ≤ B →
      ((((buildTable d B iters thr pos avs).1.getD i []).getD b emptySetup).score =
        setupScore thr
          ((((buildTable d B iters thr pos avs).1.getD i []).getD b emptySetup)).prediction ∧
       (((buildTable d B iters thr pos avs).1.getD i []).getD b emptySetup).bonus = b) := by
  intro avs
  induction avs with
  | nil => intro pos i b hi _; simp at hi
  | cons av rest ih =>
      intro pos i b hi hb
      rcases i with _ | i
      · simp only [buildTable, List.getD_cons_zero]
        have hrow := buildRow_entry d av iters thr (B + 1) 0 pos b (by omega)
        exact ⟨hrow.1, by rw [hrow.2]; omega⟩
      · simp only [buildTable, List.getD_cons_succ]
        exact ih _ i b (by simpa using hi) hb

/-- C1: for every nonempty vector list, nonzero bonus pool, threshold and
iteration count, the plan reported by `PlanWar` assigns one setup per
vector (a bonus tuple of length `V` whose table entries carry the matching
bonus amounts), its per-vector bonuses sum exactly to `B`, its total score
is the sum over vectors of the chosen setups' threshold-gated win
likelihoods, and that total score is at least the total score of every
other bonus assignment of length `V` summing to `B` (scored against the
same precomputed table). -/
theorem planner_best_allocation (d : Nat → Nat) (pos : Nat)
    (avs : List AttackVectorDef) (B iters : Nat) (thr : ℚ)
    (hV : 1 ≤ avs.length) (hB : 1 ≤ B) :
    (planWarBest d pos avs B iters thr).1.length = avs.length ∧
    (planWarBest d pos avs B iters thr).1.sum = B ∧
    (planWarBest d pos avs B iters thr).2 =
      planScore (buildTable d B iters thr pos avs).1
        (planWarBest d pos avs B iters thr).1 ∧
    (∀ i b, i < avs.length → b ≤ B →
      ((((buildTable d B iters thr pos avs).1.getD i []).getD b emptySetup).score =
        setupScore thr
          ((((buildTable d B iters thr pos avs).1.getD i []).getD b emptySetup)).prediction ∧
       (((buildTable d B iters thr pos avs).1.getD i []).getD b emptySetup).bonus = b)) ∧
    (∀ t, t.length = avs.length → t.sum = B →
      planScore (buildTable d B iters thr pos avs).1 t ≤
        (planWarBest d pos avs B iters thr).2) := by
  have hmem0t : (B :: List.replicate (avs.length - 1) 0) ∈ planTuples B avs.length := by
    apply (planTuples_iff B avs.length _).mpr
    refine ⟨?_, ?_, ?_⟩
    · simp only [List.length_cons, List.length_replicate]
      omega
    · intro x hx
      rcases List.mem_cons.mp hx with h | h
      · omega
      · rw [List.eq_of_mem_replicate h]
        omega
    · simp [List.sum_replicate]
  have hperm := List.perm_insertionSort planOrder (planWarPlans d pos avs B iters thr)
  have hsort := List.sorted_insertionSort planOrder (planWarPlans d pos avs B iters thr)
  rcases hS : (planWarPlans d pos avs B iters thr).insertionSort planOrder
    with _ | ⟨p0, rest⟩
  · exfalso
    rw [hS] at hperm
    have hnil := hperm.symm.eq_nil
    rw [planWarPlans_eq] at hnil
    have := List.map_eq_nil_iff.mp hnil
    rw [this] at hmem0t
    simp at hmem0t
  · rw [hS] at hperm hsort
    have hbest : planWarBest d pos avs B iters thr = p0 := by
      unfold planWarBest
      rw [hS]
      rfl
    have hp0mem : p0 ∈ planWarPlans d pos avs B iters thr :=
      hperm.mem_iff.mp (List.mem_cons_self p0 rest)
    rw [planWarPlans_eq] at hp0mem
    obtain ⟨t0, ht0, hfeq⟩ := List.mem_map.mp hp0mem
    have ht0p := (planTuples_iff B avs.length t0).mp ht0
    subst hfeq
    refine ⟨?_, ?_, ?_, ?_, ?_⟩
    · rw [hbest]
      exact ht0p.1
    · rw [hbest]
      exact ht0p.2.2
    · rw [hbest]
    · intro i b hi hb
      exact buildTable_entry d B iters thr avs pos i b hi hb
    · intro t htlen htsum
      have htmem : t ∈ planTuples B avs.length := by
        apply (planTuples_iff B avs.length t).mpr
        refine ⟨htlen, ?_, htsum⟩
        intro x hx
        have := list_le_sum t x hx
        omega
      have htp : (t, planScore (buildTable d B iters thr pos avs).1 t) ∈
          planWarPlans d pos avs B iters thr := by
        rw [planWarPlans_eq]
        exact List.mem_map_of_mem _ htmem
      have hts := hperm.mem_iff.mpr htp
      rcases List.mem_cons.mp hts with h | h
      · rw [hbest, ← h]
      · have hrel := List.rel_of_sorted_cons hsort _ h
        rw [hbest]
        exact hrel

theorem planner_best_allocation_w :
    1 ≤ ([(⟨1, [⟨0⟩]⟩ : AttackVectorDef)] : List AttackVectorDef).length ∧ 1 ≤ 1 ∧
    (planWarBest d0 0 [⟨1, [⟨0⟩]⟩] 1 1 0).1.length = 1 ∧
    (planWarBest d0 0 [⟨1, [⟨0⟩]⟩] 1 1 0).1.sum = 1 ∧
    (∀ t : List Nat, t.length = ([(⟨1, [⟨0⟩]⟩ : AttackVectorDef)] : List AttackVectorDef).length →
      t.sum = 1 →
      planScore (buildTable d0 1 1 0 0 [⟨1, [⟨0⟩]⟩]).1 t ≤
        (planWarBest d0 0 [⟨1, [⟨0⟩]⟩] 1 1 0).2) :=
  ⟨by decide, by decide,
   (planner_best_allocation d0 0 [⟨1, [⟨0⟩]⟩] 1 1 0 (by decide) (by decide)).1,
   (planner_best_allocation d0 0 [⟨1, [⟨0⟩]⟩] 1 1 0 (by decide) (by decide)).2.1,
   (planner_best_allocation d0 0 [⟨1, [⟨0⟩]⟩] 1 1 0 (by decide) (by decide)).2.2.2.2⟩

end WarPlan
